import Mathlib

/-!
# Verification of the gragraf graph compiler and execution engine

Shallow embedding of the core of the `gragraf` repository:

* `src/gragraf/compiler.py` — `state_reducer`, `GraphCompiler._topological_sort`,
  `GraphCompiler._validate_graph_structure`, `GraphCompiler.compile`
* `src/gragraf/parser.py` / `src/gragraf/schemas/graph.py` — `parse_graph`, `NodeType`, `Graph`
* `src/gragraf/nodes/branch.py` — `BranchNode.execute`
* `src/gragraf/utils/templating.py` — `render_template_string`, `render_config`

Python dictionaries are modelled as insertion-ordered association lists over
string keys; Python values by the inductive type `PyVal`; code that can raise
returns `Except`.
-/

set_option maxRecDepth 4000

/-- A Python value, as far as the verified code inspects one: strings,
integers, lists, dicts (insertion-ordered association lists) and `None`. -/
inductive PyVal where
  | str : String → PyVal
  | int : Int → PyVal
  | list : List PyVal → PyVal
  | dict : List (String × PyVal) → PyVal
  | none : PyVal

/-- `isinstance(v, dict)`. -/
def PyVal.isDict : PyVal → Bool
  | .dict _ => true
  | _ => false

/-- Python `d[k]` / `k in d` on a dict: first binding of the key, if any. -/
def dlookup (k : String) : List (String × PyVal) → Option PyVal
  | [] => Option.none
  | (k', v) :: rest => if k' = k then some v else dlookup k rest

/-- Python `d[k] = v`: overwrite the first binding of `k` in place, or append
a new binding at the end (dicts preserve insertion order). -/
def dictSet (d : List (String × PyVal)) (k : String) (v : PyVal) : List (String × PyVal) :=
  match d with
  | [] => [(k, v)]
  | (k', v') :: rest => if k' = k then (k', v) :: rest else (k', v') :: dictSet rest k v

/-- Python `d.update(u)`: set every binding of `u` into `d`, in `u`'s order. -/
def dictUpdate (d u : List (String × PyVal)) : List (String × PyVal) :=
  u.foldl (fun acc kv => dictSet acc kv.1 kv.2) d

/-- Python iteration `for x in v` (and `len(v)`): lists yield their elements,
strings yield their characters, dicts yield their keys; ints and `None` are
not iterable (`TypeError`). -/
def pyIter : PyVal → Option (List PyVal)
  | .list l => some l
  | .str s => some (s.toList.map (fun c => PyVal.str (String.mk [c])))
  | .dict d => some (d.map (fun kv => PyVal.str kv.1))
  | _ => Option.none

/-- `compiler.state_reducer(x, y)` (`src/gragraf/compiler.py`).  Starts from a
copy of `x`; `y is None` returns it unchanged; a dict containing the key
`__updates__` has that entry iterated, applying each dict element and skipping
(with a warning) each non-dict element; any other dict is applied directly;
any non-dict `y` is logged and skipped.  Iterating a non-iterable
`__updates__` value is the one way the Python function can raise
(`TypeError`), modelled by the `Except.error` branch. -/
def state_reducer (x : List (String × PyVal)) (y : PyVal) :
    Except String (List (String × PyVal)) :=
  match y with
  | .none => .ok x
  | .dict d =>
    match dlookup "__updates__" d with
    | some v =>
      match pyIter v with
      | some elems =>
        .ok (elems.foldl (fun acc u =>
          match u with
          | .dict m => dictUpdate acc m
          | _ => acc) x)
      | Option.none => .error "TypeError: object is not iterable"
    | Option.none => .ok (dictUpdate x d)
  | _ => .ok x

/-- The batch application performed by `state_reducer` on a `__updates__`
list: apply each dict element in order, skip everything else. -/
def applyBatch (x : List (String × PyVal)) (elems : List PyVal) : List (String × PyVal) :=
  elems.foldl (fun acc u =>
    match u with
    | .dict m => dictUpdate acc m
    | _ => acc) x

theorem state_reducer_updates_eq_applyBatch (x : List (String × PyVal))
    (d : List (String × PyVal)) (elems : List PyVal)
    (h : dlookup "__updates__" d = some (.list elems)) :
    state_reducer x (.dict d) = .ok (applyBatch x elems) := by
  simp [state_reducer, h, pyIter, applyBatch]

theorem applyBatch_filter (x : List (String × PyVal)) (elems : List PyVal) :
    applyBatch x elems = applyBatch x (elems.filter PyVal.isDict) := by
  induction elems generalizing x with
  | nil => rfl
  | cons u rest ih =>
    cases u <;> simp [applyBatch, List.filter, PyVal.isDict] at * <;>
      first
        | exact ih x
        | exact ih _

theorem dlookup_dictSet (d : List (String × PyVal)) (k k' : String) (v : PyVal) :
    dlookup k (dictSet d k' v) = if k' = k then some v else dlookup k d := by
  induction d with
  | nil => simp [dictSet, dlookup]
  | cons kv rest ih =>
    obtain ⟨k₀, v₀⟩ := kv
    by_cases h0 : k₀ = k'
    · subst h0
      by_cases h1 : k₀ = k <;> simp [dictSet, dlookup, h1]
    · by_cases h1 : k₀ = k
      · subst h1
        have : ¬ k' = k₀ := fun h => h0 h.symm
        simp [dictSet, dlookup, h0, this]
      · simp [dictSet, dlookup, h0, h1, ih]

/-- Keys not touched by an update keep their binding. -/
theorem dlookup_dictUpdate_not_mem (d u : List (String × PyVal)) (k : String)
    (h : k ∉ u.map Prod.fst) :
    dlookup k (dictUpdate d u) = dlookup k d := by
  induction u generalizing d with
  | nil => rfl
  | cons kv rest ih =>
    obtain ⟨k₀, v₀⟩ := kv
    simp only [List.map_cons, List.mem_cons] at h
    push_neg at h
    have hne : ¬ k₀ = k := fun he => h.1 he.symm
    have : dictUpdate d ((k₀, v₀) :: rest) = dictUpdate (dictSet d k₀ v₀) rest := rfl
    rw [this, ih _ h.2, dlookup_dictSet, if_neg hne]

/-- The binding an update gives to one of its own keys does not depend on the
dict being updated. -/
theorem dlookup_dictUpdate_mem (u : List (String × PyVal)) (k : String)
    (h : k ∈ u.map Prod.fst) (d d' : List (String × PyVal)) :
    dlookup k (dictUpdate d u) = dlookup k (dictUpdate d' u) := by
  induction u generalizing d d' with
  | nil => simp at h
  | cons kv rest ih =>
    obtain ⟨k₀, v₀⟩ := kv
    have hstep : ∀ e : List (String × PyVal),
        dictUpdate e ((k₀, v₀) :: rest) = dictUpdate (dictSet e k₀ v₀) rest := fun _ => rfl
    by_cases hk : k ∈ rest.map Prod.fst
    · rw [hstep, hstep, ih hk]
    · simp only [List.map_cons, List.mem_cons] at h
      rcases h with h | h

      · subst h
        rw [hstep, hstep, dlookup_dictUpdate_not_mem _ _ _ hk,
          dlookup_dictUpdate_not_mem _ _ _ hk, dlookup_dictSet, dlookup_dictSet]
        simp
      · exact absurd h hk

theorem dlookup_eq_none_of_not_mem (d : List (String × PyVal)) (k : String)
    (h : k ∉ d.map Prod.fst) : dlookup k d = Option.none := by
  induction d with
  | nil => rfl
  | cons kv rest ih =>
    obtain ⟨k₀, v₀⟩ := kv
    simp only [List.map_cons, List.mem_cons] at h
    push_neg at h
    have hne : ¬ k₀ = k := fun he => h.1 he.symm
    simp [dlookup, hne, ih h.2]

/-- C8.  The state reducer is fail-soft on malformed contributions: a
non-mapping update `y` leaves the state unchanged (`state_reducer` returns
the state `x` itself, raising nothing), and within an `__updates__` batch
every non-dict entry is skipped, the result being the same as applying only
the dict entries. -/
theorem reducer_ignores_malformed_updates :
    (∀ (x : List (String × PyVal)) (y : PyVal), y.isDict = false →
      state_reducer x y = .ok x)
    ∧ (∀ (x d : List (String × PyVal)) (elems : List PyVal),
      dlookup "__updates__" d = some (.list elems) →
      state_reducer x (.dict d) = .ok (applyBatch x elems)
      ∧ applyBatch x elems = applyBatch x (elems.filter PyVal.isDict)) := by
  constructor
  · intro x y h
    cases y with
    | dict d => simp [PyVal.isDict] at h
    | str s => rfl
    | int n => rfl
    | list l => rfl
    | none => rfl
  · intro x d elems h
    exact ⟨state_reducer_updates_eq_applyBatch x d elems h, applyBatch_filter x elems⟩

theorem reducer_ignores_malformed_updates_witness :
    state_reducer [("a", PyVal.int 1)] (PyVal.int 5) = .ok [("a", PyVal.int 1)]
    ∧ state_reducer [("a", PyVal.int 1)]
        (.dict [("__updates__", .list [PyVal.int 7, .dict [("b", PyVal.int 2)]])])
      = .ok (applyBatch [("a", PyVal.int 1)] [PyVal.int 7, .dict [("b", PyVal.int 2)]]) :=
  ⟨reducer_ignores_malformed_updates.1 [("a", PyVal.int 1)] (PyVal.int 5) rfl,
   (reducer_ignores_malformed_updates.2 [("a", PyVal.int 1)]
      [("__updates__", .list [PyVal.int 7, .dict [("b", PyVal.int 2)]])]
      [PyVal.int 7, .dict [("b", PyVal.int 2)]] rfl).1⟩

/-- C9.  Applying two flat updates with disjoint key sets through the reducer
commutes: the two application orders yield states that agree on every key,
and keys mentioned in neither update keep their value from the current
state. -/
theorem reducer_disjoint_keys_commute (x u v : List (String × PyVal))
    (hu : "__updates__" ∉ u.map Prod.fst) (hv : "__updates__" ∉ v.map Prod.fst)
    (hdisj : ∀ k ∈ u.map Prod.fst, k ∉ v.map Prod.fst) :
    state_reducer x (.dict u) = .ok (dictUpdate x u)
    ∧ state_reducer (dictUpdate x u) (.dict v) = .ok (dictUpdate (dictUpdate x u) v)
    ∧ state_reducer x (.dict v) = .ok (dictUpdate x v)
    ∧ state_reducer (dictUpdate x v) (.dict u) = .ok (dictUpdate (dictUpdate x v) u)
    ∧ (∀ k, dlookup k (dictUpdate (dictUpdate x u) v)
        = dlookup k (dictUpdate (dictUpdate x v) u))
    ∧ (∀ k, k ∉ u.map Prod.fst → k ∉ v.map Prod.fst →
        dlookup k (dictUpdate (dictUpdate x u) v) = dlookup k x) := by
  have hredu : ∀ d : List (String × PyVal), state_reducer d (.dict u) = .ok (dictUpdate d u) := by
    intro d
    simp [state_reducer, dlookup_eq_none_of_not_mem u _ hu]
  have hredv : ∀ d : List (String × PyVal), state_reducer d (.dict v) = .ok (dictUpdate d v) := by
    intro d
    simp [state_reducer, dlookup_eq_none_of_not_mem v _ hv]
  refine ⟨hredu x, hredv _, hredv x, hredu _, ?_, ?_⟩
  · intro k
    by_cases hku : k ∈ u.map Prod.fst
    · have hkv : k ∉ v.map Prod.fst := hdisj k hku
      rw [dlookup_dictUpdate_not_mem _ _ _ hkv, dlookup_dictUpdate_mem u k hku x (dictUpdate x v)]
    · by_cases hkv : k ∈ v.map Prod.fst
      · rw [dlookup_dictUpdate_not_mem (dictUpdate x v) u k hku,
          dlookup_dictUpdate_mem v k hkv (dictUpdate x u) x]
      · rw [dlookup_dictUpdate_not_mem _ _ _ hkv, dlookup_dictUpdate_not_mem _ _ _ hku,
          dlookup_dictUpdate_not_mem _ _ _ hku, dlookup_dictUpdate_not_mem _ _ _ hkv]
  · intro k hku hkv
    rw [dlookup_dictUpdate_not_mem _ _ _ hkv, dlookup_dictUpdate_not_mem _ _ _ hku]

theorem reducer_disjoint_keys_commute_witness :
    dlookup "a" (dictUpdate (dictUpdate [("c", PyVal.int 0)] [("a", PyVal.int 1)])
        [("b", PyVal.int 2)])
      = dlookup "a" (dictUpdate (dictUpdate [("c", PyVal.int 0)] [("b", PyVal.int 2)])
        [("a", PyVal.int 1)])
    ∧ dlookup "c" (dictUpdate (dictUpdate [("c", PyVal.int 0)] [("a", PyVal.int 1)])
        [("b", PyVal.int 2)])
      = dlookup "c" [("c", PyVal.int 0)] := by
  have h := reducer_disjoint_keys_commute [("c", PyVal.int 0)]
    [("a", PyVal.int 1)] [("b", PyVal.int 2)]
    (by simp) (by simp) (by intro k hk; simp_all)
  exact ⟨h.2.2.2.2.1 "a", h.2.2.2.2.2 "c" (by simp) (by simp)⟩

/-! ## Template rendering (`src/gragraf/utils/templating.py`) -/

/-- Whether `p` is a prefix of the second character list. -/
def startsWithChars : List Char → List Char → Bool
  | [], _ => true
  | _ :: _, [] => false
  | p :: ps, c :: cs => p == c && startsWithChars ps cs

/-- Whether `sub` occurs as a contiguous run in the character list. -/
def containsChars (sub : List Char) : List Char → Bool
  | [] => sub.isEmpty
  | c :: cs => startsWithChars sub (c :: cs) || containsChars sub cs

/-- Python's substring test `sub in s`. -/
def strContains (s sub : String) : Bool := containsChars sub.toList s.toList

/-- Outcome of the Jinja2 calls inside the `try` block of
`render_template_string` (`env.from_string(t)` followed by
`template.render(state)`): a rendered string, or one of the exception classes
the function catches.  With `StrictUndefined`, referencing a state variable
that is missing raises `UndefinedError`. -/
inductive RenderOutcome where
  | ok : String → RenderOutcome
  | undefinedError : String → RenderOutcome
  | templateError : String → RenderOutcome
  | otherError : String → RenderOutcome

/-- `templating.render_template_string`.  A string without both `\x7b\x7b` and
`\x7d\x7d` is returned unchanged; otherwise the Jinja2 outcome decides:
success returns the rendered text, `UndefinedError` returns the empty string
(`return f""`), `TemplateError` and any other exception return marked
strings.  The non-string passthrough of the source is vacuous here because
the argument is typed as a string.  `jinja` is the external template engine,
given as an oracle. -/
def render_template_string (jinja : String → RenderOutcome) (tpl : String) : String :=
  if !(strContains tpl "\x7b\x7b") || !(strContains tpl "\x7d\x7d") then tpl
  else
    match jinja tpl with
    | .ok r => r
    | .undefinedError _ => ""
    | .templateError m => "[TEMPLATE_ERROR: " ++ m ++ "] " ++ tpl
    | .otherError m => "[RENDER_ERROR: " ++ m ++ "] " ++ tpl

mutual

/-- `render_recursive` inside `templating.render_config`: strings are rendered
with `render_template_string`, dicts and lists are rendered recursively, all
other values pass through. -/
def renderValue (jinja : String → RenderOutcome) : PyVal → PyVal
  | .str s => .str (render_template_string jinja s)
  | .dict d => .dict (renderPairs jinja d)
  | .list l => .list (renderList jinja l)
  | .int n => .int n
  | .none => .none

def renderList (jinja : String → RenderOutcome) : List PyVal → List PyVal
  | [] => []
  | v :: rest => renderValue jinja v :: renderList jinja rest

def renderPairs (jinja : String → RenderOutcome) :
    List (String × PyVal) → List (String × PyVal)
  | [] => []
  | (k, v) :: rest => (k, renderValue jinja v) :: renderPairs jinja rest

end

/-- C10.  Rendering a template that references a missing state variable
(Jinja2's `StrictUndefined` raises `UndefinedError`) yields the empty string —
not the original template, not an error marker, and no exception; a string
without both `\x7b\x7b` and `\x7d\x7d` delimiters is returned unchanged; and
`render_config`'s recursive renderer sends every string field through
`render_template_string`. -/
theorem render_template_undefined_to_empty (jinja : String → RenderOutcome)
    (tpl s m : String) :
    (strContains tpl "\x7b\x7b" = true → strContains tpl "\x7d\x7d" = true →
      jinja tpl = .undefinedError m → render_template_string jinja tpl = "")
    ∧ ((strContains s "\x7b\x7b" = false ∨ strContains s "\x7d\x7d" = false) →
      render_template_string jinja s = s)
    ∧ (∀ t, renderValue jinja (.str t) = .str (render_template_string jinja t)) := by
  refine ⟨?_, ?_, fun t => rfl⟩
  · intro h1 h2 h3
    simp [render_template_string, h1, h2, h3]
  · intro h
    rcases h with h | h <;> simp [render_template_string, h]

theorem render_template_undefined_to_empty_witness :
    render_template_string (fun _ => RenderOutcome.undefinedError "missing")
      "\x7b\x7b missing \x7d\x7d" = ""
    ∧ render_template_string (fun _ => RenderOutcome.undefinedError "missing")
      "plain text" = "plain text" :=
  ⟨(render_template_undefined_to_empty (fun _ => RenderOutcome.undefinedError "missing")
      "\x7b\x7b missing \x7d\x7d" "plain text" "missing").1 (by decide) (by decide) rfl,
   (render_template_undefined_to_empty (fun _ => RenderOutcome.undefinedError "missing")
      "\x7b\x7b missing \x7d\x7d" "plain text" "missing").2.1 (Or.inl (by decide))⟩

/-! ## Graph schema and DSL parsing (`schemas/graph.py`, `parser.py`) -/

/-- The `NodeType` enum of `src/gragraf/schemas/graph.py`.  Its members are
exactly `AGENT`, `HTTP_REQUEST`, `KNOWLEDGE_BASE`, `BRANCH`, `START`, `END`;
there is no `HUMAN_IN_LOOP` member, although `compiler.py` refers to
`NodeType.HUMAN_IN_LOOP` throughout. -/
inductive NodeType where
  | agent
  | http_request
  | knowledge_base
  | branch
  | start
  | end_
deriving DecidableEq

/-- Pydantic validation of a `type` field against the `NodeType` values. -/
def NodeType.ofString (s : String) : Option NodeType :=
  if s = "agent" then some .agent
  else if s = "http_request" then some .http_request
  else if s = "knowledge_base" then some .knowledge_base
  else if s = "branch" then some .branch
  else if s = "start" then some .start
  else if s = "end" then some .end_
  else Option.none

/-- `schemas.graph.Edge`. -/
structure Edge where
  id : String
  source : String
  target : String
  source_handle : Option String := Option.none
  target_handle : Option String := Option.none
deriving DecidableEq

/-- `schemas.graph.Node` (the `position` field plays no role in the core). -/
structure Node where
  id : String
  type : NodeType
  config : List (String × PyVal) := []

/-- A raw node record before pydantic validation: the `type` is a string. -/
structure RawNode where
  id : String
  type : String
  config : List (String × PyVal) := []

/-- `schemas.graph.Graph`. -/
structure Graph where
  nodes : List Node
  edges : List Edge

/-- A raw graph description, as handed to `parse_graph`. -/
structure RawGraph where
  nodes : List RawNode
  edges : List Edge

/-- Pydantic validation of one node record. -/
def parseRawNode (rn : RawNode) : Option Node :=
  match NodeType.ofString rn.type with
  | some t => some { id := rn.id, type := t, config := rn.config }
  | Option.none => Option.none

/-- `parser.parse_graph` via `Graph.model_validate`: every node's `type` must
be a `NodeType` value; the error carries the offending type strings (pydantic
accumulates all of them before `parse_graph` re-raises as `ValueError`).
Edge `source`/`target` fields are plain strings — nothing checks that they
name existing nodes. -/
def parseGraph (g : RawGraph) : Except (List String) Graph :=
  match g.nodes.mapM parseRawNode with
  | some ns => .ok { nodes := ns, edges := g.edges }
  | Option.none =>
    .error ((g.nodes.map RawNode.type).filter (fun t => (NodeType.ofString t).isNone))

/-! ## Branch node (`nodes/branch.py`) -/

/-- The condition loop of `BranchNode.execute`: index of the first condition
whose `eval` returns a truthy value; the inner `try` turns an evaluator
exception into `continue`, and a falsy result also moves on. -/
def findFirstTrue (evalCond : String → Except Unit Bool) :
    List String → Nat → Option Nat
  | [], _ => Option.none
  | c :: rest, idx =>
    match evalCond c with
    | .ok true => some idx
    | _ => findFirstTrue evalCond rest (idx + 1)

/-- `BranchNode.execute`.  `evalCond` is the external expression evaluator
(`eval` with empty builtins over the rendered condition), returning the
truthiness of its result or an exception.  When no condition matches, the
`for`/`else` block assigns `decision = "else"` if `hasElse` is set, but the
`raise ValueError("No condition matched and no else branch available.")` on
the line after the `if` runs unconditionally, so the outer handler always
re-raises `ValueError("Error evaluating conditions.")` — even when an else
branch is configured. -/
def BranchNode.execute (evalCond : String → Except Unit Bool) (id : String)
    (conditions : List String) (hasElse : Bool) :
    Except String (List (String × PyVal)) :=
  match findFirstTrue evalCond conditions 0 with
  | some i => .ok [(id ++ "_decision", .str ("branch-" ++ toString i))]
  | Option.none =>
    -- `if rendered_config.hasElse: decision = "else"` runs here, but the
    -- assignment is dead: the unconditional raise follows on the next line.
    .error "Error evaluating conditions."

theorem findFirstTrue_eq_none (evalCond : String → Except Unit Bool)
    (conds : List String) (h : ∀ c ∈ conds, evalCond c ≠ .ok true) :
    ∀ idx, findFirstTrue evalCond conds idx = Option.none := by
  induction conds with
  | nil => intro idx; rfl
  | cons c rest ih =>
    intro idx
    have hc := h c (List.mem_cons_self c rest)
    have hrest : ∀ c' ∈ rest, evalCond c' ≠ .ok true :=
      fun c' hc' => h c' (List.mem_cons_of_mem c hc')
    unfold findFirstTrue
    cases he : evalCond c with
    | error u => exact ih hrest (idx + 1)
    | ok b =>
      cases b with
      | true => exact absurd he hc
      | false => exact ih hrest (idx + 1)

/-- When every condition either errors or evaluates falsy, `execute` raises
regardless of `hasElse`. -/
theorem branch_no_match_always_raises (evalCond : String → Except Unit Bool)
    (id : String) (conds : List String)
    (h : ∀ c ∈ conds, evalCond c = .ok false ∨ evalCond c = .error ()) (hasElse : Bool) :
    BranchNode.execute evalCond id conds hasElse = .error "Error evaluating conditions." := by
  have hnone : findFirstTrue evalCond conds 0 = Option.none := by
    refine findFirstTrue_eq_none evalCond conds ?_ 0
    intro c hc he
    rcases h c hc with h' | h' <;> rw [h'] at he <;> cases he
  unfold BranchNode.execute
  rw [hnone]

/-- C4.  With one condition that evaluates to false (or raises) and
`hasElse = true`, `BranchNode.execute` raises
`ValueError("Error evaluating conditions.")` instead of returning the
decision `"else"`: the `raise` in the `for`/`else` block is not guarded by
the `hasElse` check. -/
theorem branch_hasElse_still_raises :
    BranchNode.execute (fun _ => .ok false) "b" ["False"] true
      = .error "Error evaluating conditions."
    ∧ BranchNode.execute (fun _ => .error ()) "b" ["state['missing'] > 5"] true
      = .error "Error evaluating conditions." :=
  ⟨rfl, rfl⟩

/-! ## Structure validation and compilation (`compiler.py`) -/

/-- The per-node loop of `GraphCompiler._validate_graph_structure`: nodes
other than Start/End must have an incoming edge and (unless End, which the
outer test already excluded) an outgoing edge. -/
def checkNodeConnectivity (sources targets : List String) :
    List Node → Except String Unit
  | [] => .ok ()
  | n :: rest =>
    if n.type = NodeType.start ∨ n.type = NodeType.end_ then
      checkNodeConnectivity sources targets rest
    else if n.id ∉ targets ∧ n.id ∉ sources then
      .error ("Orphaned node detected: " ++ n.id)
    else if n.id ∉ targets then
      .error ("Node " ++ n.id ++ " has no incoming connections")
    else if n.id ∉ sources ∧ n.type ≠ NodeType.end_ then
      .error ("Node " ++ n.id ++ " has no outgoing connections")
    else
      checkNodeConnectivity sources targets rest

/-- `GraphCompiler._validate_graph_structure`: `_get_start_node` and
`_get_end_node` demand exactly one node of each kind, then every non-Start,
non-End node must have both an incoming and an outgoing edge — there is no
exemption for leaves later auto-wired to END. -/
def validateGraphStructure (g : Graph) : Except String Unit := do
  let startCount := (g.nodes.filter (fun n => n.type = NodeType.start)).length
  if startCount ≠ 1 then
    throw ("Expected exactly 1 start node, found " ++ toString startCount)
  let endCount := (g.nodes.filter (fun n => n.type = NodeType.end_)).length
  if endCount ≠ 1 then
    throw ("Expected exactly 1 end node, found " ++ toString endCount)
  checkNodeConnectivity (g.edges.map Edge.source) (g.edges.map Edge.target) g.nodes

/-- `GraphCompiler._create_node_instance`.  The `elif` chain tests
`NodeType.HTTP_REQUEST`, then `NodeType.BRANCH`, then
`NodeType.HUMAN_IN_LOOP` — but `HUMAN_IN_LOOP` is not a member of the
`NodeType` enum, so for every node that is neither an http_request nor a
branch, evaluating the third test raises `AttributeError`. -/
def createNodeInstance (n : Node) : Except String Unit :=
  if n.type = NodeType.http_request then .ok ()
  else if n.type = NodeType.branch then .ok ()
  else .error "AttributeError: HUMAN_IN_LOOP"

/-- The node-instantiation loop of `GraphCompiler.compile` (its body calls
`_create_node_instance` for every node). -/
def createAllInstances : List Node → Except String Unit
  | [] => .ok ()
  | n :: rest => do
    createNodeInstance n
    createAllInstances rest

/-- Errors `_topological_sort` can raise: a `KeyError` for an edge target
that is not a node id, or the cycle `ValueError` carrying the nodes missing
from the partial order. -/
inductive SortError where
  | keyError : String → SortError
  | cycle : List String → SortError
deriving DecidableEq

/-- First phase of `_topological_sort`: `in_degree[edge.target] += 1` for
each edge in order; a target that is not a key of the in-degree dict (not a
node id) raises `KeyError`. -/
def bumpInDegrees (ids : List String) :
    List Edge → (String → Int) → Except SortError (String → Int)
  | [], deg => .ok deg
  | e :: rest, deg =>
    if e.target ∈ ids then
      bumpInDegrees ids rest (fun n => if n = e.target then deg n + 1 else deg n)
    else .error (.keyError e.target)

/-- Inner edge loop of one Kahn step: for each edge out of `node`, decrement
the target's in-degree and append targets that reach zero to the queue. -/
def stepEdges (node : String) :
    List Edge → (String → Int) → List String → (String → Int) × List String
  | [], deg, queue => (deg, queue)
  | e :: rest, deg, queue =>
    if e.source = node then
      let deg' := fun n => if n = e.target then deg n - 1 else deg n
      if deg' e.target = 0 then stepEdges node rest deg' (queue ++ [e.target])
      else stepEdges node rest deg' queue
    else stepEdges node rest deg queue

/-- Lexicographic comparison of character lists by code point — the order
Python's `list.sort()` uses on the id strings.  Executable, and proved below
to agree with Mathlib's linear order on `String`. -/
def charListLe : List Char → List Char → Bool
  | [], _ => true
  | _ :: _, [] => false
  | c :: cs, d :: ds => if c = d then charListLe cs ds else decide (c < d)

/-- `a <= b` on strings, by code-point-lexicographic comparison. -/
def strLe (a b : String) : Bool := charListLe a.toList b.toList

/-- The `while queue` loop of `_topological_sort`: sort the queue, pop its
first (lexicographically smallest) element, emit it, and process its
outgoing edges.  The loop pops one node per iteration and every node is
enqueued at most once, so `ids.length` fuel is never exhausted early (proved
below via `LoopInv`). -/
def kahnLoop (E : List Edge) :
    Nat → (String → Int) → List String → List String → List String
  | 0, _, _, result => result
  | fuel + 1, deg, queue, result =>
    if queue.isEmpty then result
    else
      match List.insertionSort (fun a b => strLe a b = true) queue with
      | [] => result
      | node :: rest =>
        let p := stepEdges node E deg rest
        kahnLoop E fuel p.1 p.2 (result ++ [node])

/-- The loop of `_topological_sort` started from the freshly built in-degree
map: the initial queue lists the zero-in-degree nodes in dict order. -/
def kahnRun (ids : List String) (E : List Edge) (deg : String → Int) : List String :=
  kahnLoop E ids.length deg (ids.filter (fun n => deg n = 0)) []

/-- In-degree map the first phase produces when every edge target is a node
id: the number of edges into each node. -/
def degInit (E : List Edge) : String → Int :=
  fun n => ((E.filter (fun e => e.target = n)).length : Int)

/-- The (possibly partial) node sequence Kahn's algorithm emits. -/
def kahnPartial (ids : List String) (E : List Edge) : List String :=
  kahnRun ids E (degInit E)

/-- `GraphCompiler._topological_sort`: build in-degrees (KeyError on a
dangling target), run Kahn's loop, and raise the cycle error when the
emitted order misses nodes — reporting exactly the node ids not in the
partial result, in dict order. -/
def topologicalSort (ids : List String) (E : List Edge) :
    Except SortError (List String) := do
  let deg ← bumpInDegrees ids E (fun _ => 0)
  let result := kahnLoop E ids.length deg (ids.filter (fun n => deg n = 0)) []
  if result.length = ids.length then pure result
  else throw (.cycle (ids.filter (fun n => n ∉ result)))

/-- Rendering of a `SortError` as the exception message seen by callers. -/
def sortErrorMessage : SortError → String
  | .keyError t => "KeyError: " ++ t
  | .cycle rem => "Cycle detected in graph. Remaining nodes: " ++ String.intercalate ", " rem

/-- `GraphCompiler.compile`, as far as it can get: structure validation,
topological sort, then the node-instantiation loop — which raises
`AttributeError` at `_create_node_instance`'s third `elif` for the start
node (and every other non-http, non-branch node).  The edge analysis,
conditional routing and the leaf-to-END auto-wiring below it (lines 204-262
of `compiler.py`) also begin by evaluating `NodeType.HUMAN_IN_LOOP`; that
code is unreachable for every input. -/
def compileModel (g : Graph) : Except String (List String) := do
  validateGraphStructure g
  let _topo ← (topologicalSort (g.nodes.map Node.id) g.edges).mapError sortErrorMessage
  createAllInstances g.nodes
  throw "AttributeError: HUMAN_IN_LOOP"

/-! ## C1: suspend/resume with a HumanApproval node -/

/-- The `Start -> HumanApproval -> End` workflow of the repository's own
integration test (`tests/test_human_in_loop_integration.py`), with both an
`approval` and a `rejection` edge to End. -/
def hilpRawGraph : RawGraph :=
  { nodes :=
      [ { id := "start_1", type := "start" },
        { id := "hilp_1", type := "human_in_loop" },
        { id := "end_1", type := "end" } ],
    edges :=
      [ { id := "edge_1", source := "start_1", target := "hilp_1" },
        { id := "edge_2", source := "hilp_1", target := "end_1",
          source_handle := some "approval" },
        { id := "edge_3", source := "hilp_1", target := "end_1",
          source_handle := some "rejection" } ] }

/-- C1.  A graph containing a HumanApproval (human-in-loop) node can never be
run at all: `"human_in_loop"` is not a value of the `NodeType` enum, so
`parse_graph` — the first step of `GraphCompiler.__init__` — raises
`ValueError` on the repository's own human-in-loop integration graph, long
before any suspend/resume round-trip could happen. -/
theorem human_in_loop_graph_fails_to_parse :
    parseGraph hilpRawGraph = .error ["human_in_loop"] := rfl

/-! ## C2: dangling compute node and the leaf-to-END auto-wire -/

/-- A validated-shape graph with an agent node `a` that has an incoming edge
but no outgoing edge (the End node is fed directly from Start). -/
def danglingLeafGraph : Graph :=
  { nodes :=
      [ { id := "start", type := .start },
        { id := "a", type := .agent },
        { id := "end", type := .end_ } ],
    edges :=
      [ { id := "e1", source := "start", target := "a" },
        { id := "e2", source := "start", target := "end" } ] }

/-- C2.  A compute node with no outgoing edge is not auto-wired to End:
`_validate_graph_structure` raises `ValueError("Node a has no outgoing
connections")` first, so `compile` fails on the missing outgoing edge and
the leaf-to-END auto-wiring block further down `compile` can never run. -/
theorem dangling_leaf_fails_validation :
    compileModel danglingLeafGraph = .error "Node a has no outgoing connections" := rfl

/-- `compile` can in fact never succeed on any graph: if validation and the
topological sort pass, the node-instantiation loop hits a node that is
neither http_request nor branch (the start node at the latest) and
`_create_node_instance` raises `AttributeError` on the missing
`NodeType.HUMAN_IN_LOOP` member. -/
theorem compileModel_never_ok (g : Graph) (topo : List String) :
    compileModel g ≠ .ok topo := by
  unfold compileModel
  cases hv : validateGraphStructure g with
  | error e => simp [hv, Bind.bind, Except.bind]
  | ok u =>
    cases ht : (topologicalSort (g.nodes.map Node.id) g.edges).mapError sortErrorMessage with
    | error e => simp [hv, ht, Bind.bind, Except.bind]
    | ok t =>
      cases hc : createAllInstances g.nodes with
      | error e => simp [hv, ht, hc, Bind.bind, Except.bind]
      | ok u' => simp [hv, ht, hc, Bind.bind, Except.bind, throw, throwThe, MonadExceptOf.throw]

/-! ## C3: edges referencing nonexistent node ids -/

/-- A raw graph whose edge `e3` targets `"ghost"`, which is not the id of any
node. -/
def ghostRawGraph : RawGraph :=
  { nodes :=
      [ { id := "start", type := "start" },
        { id := "a", type := "agent" },
        { id := "end", type := "end" } ],
    edges :=
      [ { id := "e1", source := "start", target := "a" },
        { id := "e2", source := "a", target := "end" },
        { id := "e3", source := "a", target := "ghost" } ] }

/-- The typed graph `parse_graph` builds for `ghostRawGraph`. -/
def ghostGraph : Graph :=
  { nodes :=
      [ { id := "start", type := .start },
        { id := "a", type := .agent },
        { id := "end", type := .end_ } ],
    edges := ghostRawGraph.edges }

/-- C3 counterexample.  DSL validation does not fail on a dangling edge:
`parse_graph` happily returns a `Graph` for a description whose edge targets
the nonexistent node id `"ghost"`. -/
theorem dangling_edge_passes_validation :
    parseGraph ghostRawGraph = .ok ghostGraph := rfl

/-- C3 amended.  A dangling edge is not caught by DSL validation: the graph
parses, and the failure surfaces later as a `KeyError` crash inside
`_topological_sort` (`in_degree[edge.target] += 1` on the nonexistent id). -/
theorem dangling_edge_parses_then_keyerror :
    parseGraph ghostRawGraph = .ok ghostGraph
    ∧ topologicalSort (ghostGraph.nodes.map Node.id) ghostGraph.edges
        = .error (.keyError "ghost") := ⟨rfl, rfl⟩

/-! ## Correctness of `_topological_sort` (Kahn's algorithm) -/

/-- The in-degree the dict holds mid-run: number of edges into `n` whose
source has not yet been emitted. -/
def countRem (E : List Edge) (res : List String) (n : String) : Int :=
  ((E.filter (fun e => e.target = n ∧ e.source ∉ res)).length : Int)

theorem countRem_nonneg (E : List Edge) (res : List String) (n : String) :
    0 ≤ countRem E res n := Int.natCast_nonneg _

theorem countRem_nil (res : List String) (n : String) : countRem [] res n = 0 := rfl

theorem countRem_cons (e : Edge) (R : List Edge) (res : List String) (n : String) :
    countRem (e :: R) res n
      = (if e.target = n ∧ e.source ∉ res then (1 : Int) else 0) + countRem R res n := by
  by_cases h : e.target = n ∧ e.source ∉ res <;>
    simp [countRem, List.filter_cons, h] <;> push_cast <;> ring

theorem countRem_eq_zero_iff (E : List Edge) (res : List String) (n : String) :
    countRem E res n = 0 ↔ ∀ e ∈ E, e.target = n → e.source ∈ res := by
  induction E with
  | nil => simp [countRem_nil]
  | cons e R ih =>
    rw [countRem_cons]
    by_cases h : e.target = n ∧ e.source ∉ res
    · have : (1 : Int) + countRem R res n ≠ 0 := by
        have := countRem_nonneg R res n; omega
      simp only [if_pos h]
      constructor
      · intro h0; exact absurd h0 this
      · intro hall; exact absurd (hall e (List.mem_cons_self e R) h.1) h.2
    · simp only [if_neg h, zero_add, ih]
      constructor
      · intro hall e' he' ht'
        rcases List.mem_cons.mp he' with rfl | hm
        · by_contra hsrc
          exact h ⟨ht', hsrc⟩
        · exact hall e' hm ht'
      · intro hall e' he' ht'
        exact hall e' (List.mem_cons_of_mem e he') ht'

theorem countRem_ne_zero_iff (E : List Edge) (res : List String) (n : String) :
    countRem E res n ≠ 0 ↔ ∃ e ∈ E, e.target = n ∧ e.source ∉ res := by
  rw [Ne, countRem_eq_zero_iff]
  push_neg
  rfl

/-- The set of currently ready nodes, in the spec's sense: not yet emitted,
and every incoming edge comes from an emitted node (zero remaining
in-degree). -/
def readyNodes (N : List String) (E : List Edge) (done : List String) : List String :=
  N.filter (fun n => n ∉ done ∧ ∀ e ∈ E, e.target = n → e.source ∈ done)

theorem mem_readyNodes (N : List String) (E : List Edge) (done : List String) (n : String) :
    n ∈ readyNodes N E done ↔ n ∈ N ∧ n ∉ done ∧ countRem E done n = 0 := by
  rw [readyNodes, List.mem_filter, countRem_eq_zero_iff]
  simp

/-- Invariant of the `while queue` loop of `_topological_sort`. -/
structure LoopInv (N : List String) (E : List Edge) (deg : String → Int)
    (queue result : List String) : Prop where
  nodupR : result.Nodup
  nodupQ : queue.Nodup
  memQ : ∀ n ∈ queue, n ∈ N ∧ n ∉ result
  memR : ∀ n ∈ result, n ∈ N
  degEq : ∀ n, deg n = countRem E result n
  ready : ∀ n ∈ N, n ∉ result → (n ∈ queue ↔ countRem E result n = 0)
  order : ∀ e ∈ E, e.target ∈ result → [e.source, e.target].Sublist result

theorem stepEdges_spec (N : List String) (E : List Edge) (node : String)
    (result : List String)
    (hE : ∀ e ∈ E, e.source ∈ N ∧ e.target ∈ N)
    (horder : ∀ e ∈ E, e.target ∈ result → e.source ∈ result)
    (hnodeR : node ∉ result)
    (hready : countRem E result node = 0) :
    ∀ (R : List Edge) (base deg : String → Int) (queue : List String),
    (∀ e ∈ R, e ∈ E) →
    (∀ n, 0 ≤ base n) →
    (∀ n, deg n = base n + countRem R result n) →
    (∀ n ∈ N, n ∉ result ++ [node] →
      (n ∈ queue ↔ base n + countRem R result n = 0)) →
    (∀ n ∈ queue, n ∈ N ∧ n ∉ result ++ [node]) →
    queue.Nodup →
    (∀ n, (stepEdges node R deg queue).1 n = base n + countRem R (result ++ [node]) n)
    ∧ (∀ n ∈ N, n ∉ result ++ [node] →
        (n ∈ (stepEdges node R deg queue).2 ↔ base n + countRem R (result ++ [node]) n = 0))
    ∧ (∀ n ∈ (stepEdges node R deg queue).2, n ∈ N ∧ n ∉ result ++ [node])
    ∧ (stepEdges node R deg queue).2.Nodup := by
  intro R
  induction R with
  | nil =>
    intro base deg queue hRE hbase hdeg hq hqN hqNd
    refine ⟨?_, ?_, hqN, hqNd⟩
    · intro n; simpa [stepEdges, countRem_nil] using hdeg n
    · intro n hn hn'; simpa [stepEdges, countRem_nil] using hq n hn hn'
  | cons e R ih =>
    intro base deg queue hRE hbase hdeg hq hqN hqNd
    have heE : e ∈ E := hRE e (List.mem_cons_self e R)
    have hRE' : ∀ e' ∈ R, e' ∈ E := fun e' h => hRE e' (List.mem_cons_of_mem e h)
    by_cases hs : e.source = node
    · -- the edge leaves the popped node: its target gets decremented
      have htN : e.target ∈ N := (hE e heE).2
      have htR : e.target ∉ result := fun hmem => hnodeR (hs ▸ horder e heE hmem)
      have htnode : e.target ≠ node := by
        intro ht
        exact (countRem_ne_zero_iff E result node).mpr ⟨e, heE, ht, hs ▸ hnodeR⟩ hready
      have htR' : e.target ∉ result ++ [node] := by simp [htR, htnode]
      have hcnt : ∀ n, countRem (e :: R) result n
          = (if e.target = n then (1 : Int) else 0) + countRem R result n := by
        intro n
        rw [countRem_cons]
        congr 1
        by_cases ht : e.target = n <;> simp [ht, hs, hnodeR]
      have hcnt' : ∀ n, countRem (e :: R) (result ++ [node]) n
          = countRem R (result ++ [node]) n := by
        intro n
        rw [countRem_cons]
        have : ¬ (e.target = n ∧ e.source ∉ result ++ [node]) := by
          intro hand
          exact hand.2 (by simp [hs])
        rw [if_neg this, zero_add]
      have hdeg' : ∀ n, (if n = e.target then deg n - 1 else deg n)
          = base n + countRem R result n := by
        intro n
        by_cases hn : n = e.target
        · subst hn
          rw [if_pos rfl, hdeg e.target, hcnt e.target, if_pos rfl]
          ring
        · rw [if_neg hn, hdeg n, hcnt n, if_neg (fun h => hn h.symm), zero_add]
      have hqt : e.target ∉ queue := by
        intro hmem
        have h0 := (hq e.target htN htR').mp hmem
        rw [hcnt e.target, if_pos rfl] at h0
        have h1 := hbase e.target
        have h2 := countRem_nonneg R result e.target
        omega
      have hdt : (if e.target = e.target then deg e.target - 1 else deg e.target)
          = base e.target + countRem R result e.target := hdeg' e.target
      rw [if_pos rfl] at hdt
      by_cases hz : deg e.target - 1 = 0
      · -- target reaches zero in-degree: append it
        have hstep : stepEdges node (e :: R) deg queue
            = stepEdges node R (fun n => if n = e.target then deg n - 1 else deg n)
                (queue ++ [e.target]) := by
          simp [stepEdges, hs, hz]
        have haq : ∀ n ∈ N, n ∉ result ++ [node] →
            (n ∈ queue ++ [e.target] ↔ base n + countRem R result n = 0) := by
          intro n hn hn'
          by_cases hnt : n = e.target
          · subst hnt
            have hz' : base e.target + countRem R result e.target = 0 := by omega
            simp [hz']
          · rw [List.mem_append, List.mem_singleton]
            have hiff : n ∈ queue ↔ base n + countRem R result n = 0 := by
              rw [hq n hn hn', hcnt n, if_neg (fun h => hnt h.symm), zero_add]
            simp [hnt, hiff]
        have haqN : ∀ n ∈ queue ++ [e.target], n ∈ N ∧ n ∉ result ++ [node] := by
          intro n hn
          rcases List.mem_append.mp hn with h | h
          · exact hqN n h
          · rw [List.mem_singleton] at h
            subst h
            exact ⟨htN, htR'⟩
        have haqNd : (queue ++ [e.target]).Nodup := by
          refine List.Nodup.append hqNd (List.nodup_singleton _) ?_
          intro a ha ha'
          rw [List.mem_singleton] at ha'
          subst ha'
          exact hqt ha
        obtain ⟨c1, c2, c3, c4⟩ :=
          ih base (fun n => if n = e.target then deg n - 1 else deg n) (queue ++ [e.target])
            hRE' hbase (fun n => hdeg' n) haq haqN haqNd
        rw [hstep]
        refine ⟨?_, ?_, c3, c4⟩
        · intro n; rw [hcnt' n]; exact c1 n
        · intro n hn hn'; rw [hcnt' n]; exact c2 n hn hn'
      · -- target still has pending edges: queue unchanged
        have hstep : stepEdges node (e :: R) deg queue
            = stepEdges node R (fun n => if n = e.target then deg n - 1 else deg n) queue := by
          simp [stepEdges, hs, hz]
        have haq : ∀ n ∈ N, n ∉ result ++ [node] →
            (n ∈ queue ↔ base n + countRem R result n = 0) := by
          intro n hn hn'
          by_cases hnt : n = e.target
          · subst hnt
            have hz' : base e.target + countRem R result e.target ≠ 0 := by omega
            constructor
            · intro hmem; exact absurd hmem hqt
            · intro h0; exact absurd h0 hz'
          · rw [hq n hn hn', hcnt n, if_neg (fun h => hnt h.symm), zero_add]
        obtain ⟨c1, c2, c3, c4⟩ :=
          ih base (fun n => if n = e.target then deg n - 1 else deg n) queue
            hRE' hbase (fun n => hdeg' n) haq hqN hqNd
        rw [hstep]
        refine ⟨?_, ?_, c3, c4⟩
        · intro n; rw [hcnt' n]; exact c1 n
        · intro n hn hn'; rw [hcnt' n]; exact c2 n hn hn'
    · -- the edge does not leave the popped node: fold it into the base
      have hstep : stepEdges node (e :: R) deg queue = stepEdges node R deg queue := by
        simp [stepEdges, hs]
      have hcntiff : ∀ n, (if e.target = n ∧ e.source ∉ result then (1 : Int) else 0)
          = if e.target = n ∧ e.source ∉ result ++ [node] then 1 else 0 := by
        intro n
        by_cases ht : e.target = n <;> simp [ht, hs]
      have hb' : ∀ n, (0 : Int) ≤ base n + if e.target = n ∧ e.source ∉ result then 1 else 0 := by
        intro n
        have := hbase n
        by_cases h : e.target = n ∧ e.source ∉ result <;> simp [h] <;> omega
      have hd' : ∀ n, deg n
          = (base n + if e.target = n ∧ e.source ∉ result then 1 else 0)
            + countRem R result n := by
        intro n
        rw [hdeg n, countRem_cons]
        ring
      have hq' : ∀ n ∈ N, n ∉ result ++ [node] →
          (n ∈ queue ↔
            (base n + if e.target = n ∧ e.source ∉ result then 1 else 0)
              + countRem R result n = 0) := by
        intro n hn hn'
        refine (hq n hn hn').trans ?_
        rw [countRem_cons]
        constructor <;> intro h <;> omega
      obtain ⟨c1, c2, c3, c4⟩ :=
        ih (fun n => base n + if e.target = n ∧ e.source ∉ result then 1 else 0) deg queue
          hRE' hb' hd' hq' hqN hqNd
      have c1' : ∀ n, (stepEdges node R deg queue).1 n
          = (base n + if e.target = n ∧ e.source ∉ result then (1 : Int) else 0)
            + countRem R (result ++ [node]) n := fun n => c1 n
      have c2' : ∀ n ∈ N, n ∉ result ++ [node] →
          (n ∈ (stepEdges node R deg queue).2 ↔
            (base n + if e.target = n ∧ e.source ∉ result then (1 : Int) else 0)
              + countRem R (result ++ [node]) n = 0) := fun n hn hn' => c2 n hn hn'
      rw [hstep]
      refine ⟨?_, ?_, c3, c4⟩
      · intro n
        rw [countRem_cons, ← hcntiff n, c1' n]
        ring
      · intro n hn hn'
        rw [countRem_cons, ← hcntiff n]
        refine (c2' n hn hn').trans ?_
        constructor <;> intro h <;> omega

theorem charListLe_iff (x : List Char) :
    ∀ y, charListLe x y = true ↔ ¬ List.Lex (· < ·) y x := by
  induction x with
  | nil =>
    intro y
    simp only [charListLe]
    constructor
    · intro _ h; cases h
    · intro _; trivial
  | cons c cs ih =>
    intro y
    cases y with
    | nil =>
      simp only [charListLe]
      constructor
      · intro h; cases h
      · intro h; exact absurd List.Lex.nil h
    | cons d ds =>
      simp only [charListLe]
      by_cases hcd : c = d
      · subst hcd
        rw [if_pos rfl, ih ds]
        constructor
        · intro h hlex
          cases hlex with
          | rel hr => exact lt_irrefl c hr
          | cons hl => exact h hl
        · intro h hlex
          exact h (List.Lex.cons hlex)
      · rw [if_neg hcd]
        simp only [decide_eq_true_eq]
        constructor
        · intro hlt hlex
          cases hlex with
          | rel hr => exact lt_asymm hlt hr
          | cons hl => exact hcd rfl
        · intro h
          rcases lt_or_gt_of_ne hcd with h1 | h1
          · exact h1
          · exact absurd (List.Lex.rel (show d < c from h1)) h

/-- The executable comparator agrees with Mathlib's linear order on
`String` (both are code-point-lexicographic). -/
theorem strLe_iff (a b : String) : strLe a b = true ↔ a ≤ b := by
  rw [strLe, charListLe_iff a.toList b.toList, String.le_iff_toList_le]
  show ¬ b.toList < a.toList ↔ _
  exact not_lt

instance strLe_total : IsTotal String (fun a b => strLe a b = true) :=
  ⟨fun a b => by rw [strLe_iff, strLe_iff]; exact le_total a b⟩

instance strLe_trans : IsTrans String (fun a b => strLe a b = true) :=
  ⟨fun a b c hab hbc => by
    rw [strLe_iff] at hab hbc ⊢
    exact le_trans hab hbc⟩

theorem nodup_length_le_of_subset {l m : List String} (hl : l.Nodup)
    (hsub : ∀ x ∈ l, x ∈ m) : l.length ≤ m.length := by
  have h1 : l.toFinset ⊆ m.toFinset := fun x hx =>
    List.mem_toFinset.mpr (hsub x (List.mem_toFinset.mp hx))
  have hc1 : l.toFinset.card = l.length := by rw [List.card_toFinset, hl.dedup]
  have hc2 := List.toFinset_card_le m
  have := Finset.card_le_card h1
  omega

theorem nodup_subset_full {res N : List String} (hres : res.Nodup) (hN : N.Nodup)
    (hsub : ∀ x ∈ res, x ∈ N) (hlen : N.length ≤ res.length) : ∀ n ∈ N, n ∈ res := by
  intro n hn
  have h1 : res.toFinset ⊆ N.toFinset := fun x hx =>
    List.mem_toFinset.mpr (hsub x (List.mem_toFinset.mp hx))
  have hc1 : res.toFinset.card = res.length := by rw [List.card_toFinset, hres.dedup]
  have hc2 : N.toFinset.card = N.length := by rw [List.card_toFinset, hN.dedup]
  have heq : res.toFinset = N.toFinset := Finset.eq_of_subset_of_card_le h1 (by omega)
  have hmem : n ∈ N.toFinset := List.mem_toFinset.mpr hn
  rw [← heq] at hmem
  exact List.mem_toFinset.mp hmem

theorem get_append_length (l t : List String) (x : String)
    (h : l.length < (l ++ x :: t).length) : (l ++ x :: t).get ⟨l.length, h⟩ = x := by
  simp [List.getElem_append_right]

theorem kahnLoop_spec (N : List String) (E : List Edge)
    (hN : N.Nodup) (hE : ∀ e ∈ E, e.source ∈ N ∧ e.target ∈ N) :
    ∀ (fuel : Nat) (deg : String → Int) (queue result : List String),
    LoopInv N E deg queue result →
    N.length ≤ fuel + result.length →
    result <+: kahnLoop E fuel deg queue result
    ∧ (kahnLoop E fuel deg queue result).Nodup
    ∧ (∀ n ∈ kahnLoop E fuel deg queue result, n ∈ N)
    ∧ (∀ e ∈ E, e.target ∈ kahnLoop E fuel deg queue result →
        [e.source, e.target].Sublist (kahnLoop E fuel deg queue result))
    ∧ (∀ n ∈ N, n ∉ kahnLoop E fuel deg queue result →
        ∃ e ∈ E, e.target = n ∧ e.source ∉ kahnLoop E fuel deg queue result)
    ∧ (∀ i, result.length ≤ i → ∀ h : i < (kahnLoop E fuel deg queue result).length,
        (kahnLoop E fuel deg queue result).get ⟨i, h⟩
            ∈ readyNodes N E ((kahnLoop E fuel deg queue result).take i)
        ∧ ∀ m ∈ readyNodes N E ((kahnLoop E fuel deg queue result).take i),
            ((kahnLoop E fuel deg queue result).get ⟨i, h⟩) ≤ m) := by
  intro fuel
  induction fuel with
  | zero =>
    intro deg queue result inv hfuel
    have hout : kahnLoop E 0 deg queue result = result := rfl
    rw [hout]
    have hfull : ∀ n ∈ N, n ∈ result :=
      nodup_subset_full inv.nodupR hN inv.memR (by omega)
    refine ⟨List.prefix_refl result, inv.nodupR, inv.memR, inv.order, ?_, ?_⟩
    · intro n hn hnr
      exact absurd (hfull n hn) hnr
    · intro i hi h
      omega
  | succ fuel ih =>
    intro deg queue result inv hfuel
    cases hq0 : queue with
    | nil =>
      subst hq0
      have hout : kahnLoop E (fuel + 1) deg [] result = result := by
        simp [kahnLoop]
      rw [hout]
      refine ⟨List.prefix_refl result, inv.nodupR, inv.memR, inv.order, ?_, ?_⟩
      · intro n hn hnr
        have h1 := inv.ready n hn hnr
        have h2 : n ∉ ([] : List String) := List.not_mem_nil n
        have h3 : countRem E result n ≠ 0 := fun h0 => h2 (h1.mpr h0)
        exact (countRem_ne_zero_iff E result n).mp h3
      · intro i hi h
        omega
    | cons q qs =>
      subst hq0
      have hperm : List.Perm (List.insertionSort (fun a b => strLe a b = true) (q :: qs))
          (q :: qs) := List.perm_insertionSort _ _
      cases hs0 : List.insertionSort (fun a b => strLe a b = true) (q :: qs) with
      | nil =>
        rw [hs0] at hperm
        exact absurd hperm.symm.eq_nil (by simp)
      | cons node rest =>
        rw [hs0] at hperm
        have hstep : kahnLoop E (fuel + 1) deg (q :: qs) result
            = kahnLoop E fuel (stepEdges node E deg rest).1 (stepEdges node E deg rest).2
                (result ++ [node]) := by
          simp only [kahnLoop, List.isEmpty_cons, Bool.false_eq_true, if_false, hs0]
        have hnodeQ : node ∈ q :: qs := hperm.subset (List.mem_cons_self node rest)
        obtain ⟨hnodeN, hnodeR⟩ := inv.memQ node hnodeQ
        have hready0 : countRem E result node = 0 := (inv.ready node hnodeN hnodeR).mp hnodeQ
        have hsortedNd : (node :: rest).Nodup := hperm.nodup_iff.mpr inv.nodupQ
        have hnodeRest : node ∉ rest := (List.nodup_cons.mp hsortedNd).1
        have hrestNd : rest.Nodup := (List.nodup_cons.mp hsortedNd).2
        have hsorted : List.Sorted (fun a b => strLe a b = true) (node :: rest) := by
          rw [← hs0]
          exact List.sorted_insertionSort _ _
        have hminRest : ∀ b ∈ rest, strLe node b = true := (List.sorted_cons.mp hsorted).1
        have hminQ : ∀ b ∈ q :: qs, strLe node b = true := by
          intro b hb
          have : b ∈ node :: rest := hperm.symm.subset hb
          rcases List.mem_cons.mp this with rfl | hbr
          · exact (strLe_iff b b).mpr le_rfl
          · exact hminRest b hbr
        have horderw : ∀ e ∈ E, e.target ∈ result → e.source ∈ result := by
          intro e he ht
          exact (inv.order e he ht).subset (List.mem_cons_self _ _)
        obtain ⟨s1, s2, s3, s4⟩ :=
          stepEdges_spec N E node result hE horderw hnodeR hready0 E (fun _ => 0) deg rest
            (fun e he => he)
            (fun n => le_rfl)
            (fun n => by rw [zero_add]; exact inv.degEq n)
            (by
              intro n hn hn'
              have hnr : n ∉ result := fun h => hn' (by simp [h])
              have hnn : n ≠ node := fun h => hn' (by simp [h])
              have h1 : n ∈ rest ↔ n ∈ q :: qs := by
                constructor
                · intro h
                  exact hperm.subset (List.mem_cons_of_mem node h)
                · intro h
                  rcases List.mem_cons.mp (hperm.symm.subset h) with h2 | h2
                  · exact absurd h2 hnn
                  · exact h2
              rw [zero_add, h1]
              exact inv.ready n hn hnr)
            (by
              intro n hn
              have hq' : n ∈ q :: qs := hperm.subset (List.mem_cons_of_mem node hn)
              obtain ⟨h1, h2⟩ := inv.memQ n hq'
              have hnn : n ≠ node := by
                intro h
                subst h
                exact hnodeRest hn
              refine ⟨h1, ?_⟩
              simp [h2, hnn])
            hrestNd
        have s1' : ∀ n, (stepEdges node E deg rest).1 n = countRem E (result ++ [node]) n :=
          fun n => by rw [s1 n, zero_add]
        have s2' : ∀ n ∈ N, n ∉ result ++ [node] →
            (n ∈ (stepEdges node E deg rest).2 ↔ countRem E (result ++ [node]) n = 0) :=
          fun n hn hn' => by rw [s2 n hn hn', zero_add]
        have hnodupR' : (result ++ [node]).Nodup := by
          refine List.Nodup.append inv.nodupR (List.nodup_singleton node) ?_
          intro a ha ha'
          rw [List.mem_singleton] at ha'
          subst ha'
          exact hnodeR ha
        have inv' : LoopInv N E (stepEdges node E deg rest).1 (stepEdges node E deg rest).2
            (result ++ [node]) := by
          refine ⟨hnodupR', s4, s3, ?_, s1', s2', ?_⟩
          · intro n hn
            rcases List.mem_append.mp hn with h | h
            · exact inv.memR n h
            · rw [List.mem_singleton] at h
              subst h
              exact hnodeN
          · intro e he ht
            rcases List.mem_append.mp ht with h | h
            · exact (inv.order e he h).trans (List.sublist_append_left result [node])
            · rw [List.mem_singleton] at h
              have hsrc : e.source ∈ result :=
                (countRem_eq_zero_iff E result node).mp hready0 e he h
              have h1 : [e.source].Sublist result := List.singleton_sublist.mpr hsrc
              have h2 : ([e.source] ++ [e.target]).Sublist (result ++ [e.target]) :=
                h1.append (List.Sublist.refl [e.target])
              rw [h] at h2 ⊢
              exact h2
        have hfuel' : N.length ≤ fuel + (result ++ [node]).length := by
          rw [List.length_append, List.length_singleton]
          omega
        obtain ⟨d1, d2, d3, d4, d5, d6⟩ :=
          ih (stepEdges node E deg rest).1 (stepEdges node E deg rest).2 (result ++ [node])
            inv' hfuel'
        rw [hstep]
        refine ⟨(List.prefix_append result [node]).trans d1, d2, d3, d4, d5, ?_⟩
        intro i hi h
        by_cases hieq : i = result.length
        · subst hieq
          obtain ⟨tl, htl⟩ := d1
          have hout : kahnLoop E fuel (stepEdges node E deg rest).1
              (stepEdges node E deg rest).2 (result ++ [node])
              = result ++ (node :: tl) := by
            rw [← htl, List.append_assoc]
            rfl
          have htake : (kahnLoop E fuel (stepEdges node E deg rest).1
              (stepEdges node E deg rest).2 (result ++ [node])).take result.length = result := by
            rw [hout, List.take_left]
          have key : ∀ (L : List String), L = result ++ node :: tl →
              ∀ hL : result.length < L.length, L.get ⟨result.length, hL⟩ = node := by
            intro L hLeq hL
            subst hLeq
            exact get_append_length result tl node hL
          have hget : (kahnLoop E fuel (stepEdges node E deg rest).1
              (stepEdges node E deg rest).2 (result ++ [node])).get ⟨result.length, h⟩ = node :=
            key _ hout h
          rw [htake, hget]
          constructor
          · exact (mem_readyNodes N E result node).mpr ⟨hnodeN, hnodeR, hready0⟩
          · intro m hm
            obtain ⟨hmN, hmR, hmC⟩ := (mem_readyNodes N E result m).mp hm
            have hmQ : m ∈ q :: qs := (inv.ready m hmN hmR).mpr hmC
            exact (strLe_iff node m).mp (hminQ m hmQ)
        · have hi' : (result ++ [node]).length ≤ i := by
            rw [List.length_append, List.length_singleton]
            omega
          exact d6 i hi' h

theorem degInit_eq_countRem (E : List Edge) (n : String) :
    degInit E n = countRem E [] n := by
  unfold degInit countRem
  congr 2
  exact List.filter_congr (fun e _ => by simp)

theorem bumpInDegrees_ok (ids : List String) :
    ∀ (E : List Edge) (deg0 : String → Int), (∀ e ∈ E, e.target ∈ ids) →
    bumpInDegrees ids E deg0 = .ok (fun n => deg0 n + countRem E [] n) := by
  intro E
  induction E with
  | nil =>
    intro deg0 _
    unfold bumpInDegrees
    congr 1
    funext n
    rw [countRem_nil, add_zero]
  | cons e R ih =>
    intro deg0 hT
    have ht : e.target ∈ ids := hT e (List.mem_cons_self e R)
    unfold bumpInDegrees
    rw [if_pos ht, ih _ (fun e' h => hT e' (List.mem_cons_of_mem e h))]
    congr 1
    funext n
    rw [countRem_cons]
    by_cases hn : n = e.target
    · subst hn
      rw [if_pos rfl, if_pos (by simp)]
      ring
    · rw [if_neg hn, if_neg (fun hand => hn hand.1.symm)]
      ring

theorem topologicalSort_eq (ids : List String) (E : List Edge)
    (hT : ∀ e ∈ E, e.target ∈ ids) :
    topologicalSort ids E =
      if (kahnPartial ids E).length = ids.length then .ok (kahnPartial ids E)
      else .error (.cycle (ids.filter (fun n => n ∉ kahnPartial ids E))) := by
  unfold topologicalSort kahnPartial kahnRun
  rw [bumpInDegrees_ok ids E (fun _ => 0) hT]
  have hfun : (fun n => (0 : Int) + countRem E [] n) = degInit E := by
    funext n
    rw [zero_add, degInit_eq_countRem]
  rw [hfun]
  rfl

/-- The conclusions of the loop invariant, at the actual initial state of
`_topological_sort`: the emitted sequence is duplicate-free, respects every
edge whose target it contains, leaves only nodes with an unemitted
predecessor, and at every step emits the `strLe`-least ready node. -/
theorem kahnPartial_spec (ids : List String) (E : List Edge)
    (hN : ids.Nodup) (hE : ∀ e ∈ E, e.source ∈ ids ∧ e.target ∈ ids) :
    (kahnPartial ids E).Nodup
    ∧ (∀ n ∈ kahnPartial ids E, n ∈ ids)
    ∧ (∀ e ∈ E, e.target ∈ kahnPartial ids E →
        [e.source, e.target].Sublist (kahnPartial ids E))
    ∧ (∀ n ∈ ids, n ∉ kahnPartial ids E →
        ∃ e ∈ E, e.target = n ∧ e.source ∉ kahnPartial ids E)
    ∧ (∀ i, ∀ h : i < (kahnPartial ids E).length,
        (kahnPartial ids E).get ⟨i, h⟩ ∈ readyNodes ids E ((kahnPartial ids E).take i)
        ∧ ∀ m ∈ readyNodes ids E ((kahnPartial ids E).take i),
            (kahnPartial ids E).get ⟨i, h⟩ ≤ m) := by
  have inv0 : LoopInv ids E (degInit E) (ids.filter (fun n => degInit E n = 0)) [] := by
    refine ⟨List.nodup_nil, hN.filter _, ?_, ?_, ?_, ?_, ?_⟩
    · intro n hn
      exact ⟨(List.mem_filter.mp hn).1, List.not_mem_nil n⟩
    · intro n hn
      exact absurd hn (List.not_mem_nil n)
    · intro n
      exact degInit_eq_countRem E n
    · intro n hn _
      rw [List.mem_filter]
      rw [← degInit_eq_countRem]
      simp [hn]
    · intro e _ ht
      exact absurd ht (List.not_mem_nil _)
  have h := kahnLoop_spec ids E hN hE ids.length (degInit E)
    (ids.filter (fun n => degInit E n = 0)) [] inv0 (by simp)
  obtain ⟨_, h2, h3, h4, h5, h6⟩ := h
  exact ⟨h2, h3, h4, h5, fun i hi => h6 i (by simp) hi⟩

/-! ## Cycles -/

/-- There is an edge from `a` to `b` in the edge list. -/
def hasEdge (E : List Edge) (a b : String) : Prop :=
  ∃ e ∈ E, e.source = a ∧ e.target = b

/-- The graph has a directed cycle: a nonempty edge path returning to its
first node. -/
def hasCycle (E : List Edge) : Prop :=
  ∃ a p, List.Chain' (hasEdge E) (a :: (p ++ [a]))

theorem chain'_strengthen {R S : String → String → Prop} {P : String → Prop}
    (hRS : ∀ a b, R a b → P a → P b → S a b) :
    ∀ l : List String, List.Chain' R l → (∀ x ∈ l, P x) → List.Chain' S l := by
  intro l
  induction l with
  | nil => intro _ _; exact List.chain'_nil
  | cons x xs ih =>
    cases xs with
    | nil => intro _ _; exact List.chain'_singleton x
    | cons y ys =>
      intro hch hP
      rw [List.chain'_cons] at hch ⊢
      exact ⟨hRS x y hch.1 (hP x (by simp)) (hP y (by simp)),
        ih hch.2 (fun z hz => hP z (List.mem_cons_of_mem x hz))⟩

theorem chain'_head_lt_getLast (S : String → String → Prop) (f : String → Nat)
    (hmono : ∀ a b, S a b → f a < f b) :
    ∀ (xs : List String) (a z : String), List.Chain' S (a :: xs) →
      (a :: xs).getLast? = some z → xs ≠ [] → f a < f z := by
  intro xs
  induction xs with
  | nil => intro a z _ _ hne; exact absurd rfl hne
  | cons y ys ih =>
    intro a z hch hlast _
    rw [List.chain'_cons] at hch
    have h1 : f a < f y := hmono a y hch.1
    cases ys with
    | nil =>
      simp only [List.getLast?_cons_cons, List.getLast?_singleton, Option.some.injEq] at hlast
      rw [← hlast]
      exact h1
    | cons w ws =>
      have hlast' : ((y :: w :: ws).getLast?) = some z := by
        rw [List.getLast?_cons_cons] at hlast
        exact hlast
      exact lt_trans h1 (ih y z hch.2 hlast' (by simp))

theorem chain'_tail_pred (E : List Edge) :
    ∀ l : List String, List.Chain' (hasEdge E) l →
      ∀ w ∈ l.tail, ∃ v, hasEdge E v w := by
  intro l
  induction l with
  | nil => intro _ w hw; simp at hw
  | cons x xs ih =>
    intro hch w hw
    cases xs with
    | nil => simp at hw
    | cons y ys =>
      rw [List.chain'_cons] at hch
      rcases List.mem_cons.mp hw with rfl | hw'
      · exact ⟨x, hch.1⟩
      · exact ih hch.2 w hw'

theorem indexOf_lt_of_pair_sublist {a b : String} :
    ∀ {l : List String}, l.Nodup → [a, b].Sublist l → l.indexOf a < l.indexOf b := by
  intro l
  induction l with
  | nil => intro _ h; simp at h
  | cons c rest ih =>
    intro hnd hsub
    obtain ⟨hc, hrest⟩ := List.nodup_cons.mp hnd
    cases hsub with
    | cons _ h' =>
      have ha : a ∈ rest := h'.subset (by simp)
      have hb : b ∈ rest := h'.subset (by simp)
      have hca : c ≠ a := fun he => hc (by rw [he]; exact ha)
      have hcb : c ≠ b := fun he => hc (by rw [he]; exact hb)
      rw [List.indexOf_cons_ne _ hca, List.indexOf_cons_ne _ hcb]
      exact Nat.succ_lt_succ (ih hrest h')
    | cons₂ _ h' =>
      have hb : b ∈ rest := List.singleton_sublist.mp h'
      have hab : a ≠ b := fun he => hc (by rw [he]; exact hb)
      rw [List.indexOf_cons_self, List.indexOf_cons_ne _ hab]
      exact Nat.succ_pos _

/-- A graph whose every edge goes strictly forward along some linear list has
no cycle.  (Used to discharge acyclicity for concrete graphs.) -/
theorem not_hasCycle_of_linear (E : List Edge) (L : List String)
    (h : ∀ e ∈ E, L.indexOf e.source < L.indexOf e.target) : ¬ hasCycle E := by
  rintro ⟨a, p, hch⟩
  have hmono : ∀ x y, hasEdge E x y → L.indexOf x < L.indexOf y := by
    rintro x y ⟨e, he, hs, ht⟩
    rw [← hs, ← ht]
    exact h e he
  have hlast : (a :: (p ++ [a])).getLast? = some a := by
    rw [show a :: (p ++ [a]) = (a :: p) ++ [a] from rfl]
    exact List.getLast?_concat _
  exact lt_irrefl _
    (chain'_head_lt_getLast (hasEdge E) (fun s => L.indexOf s) hmono (p ++ [a]) a a
      hch hlast (by simp))

/-- The path of iterated predecessors, from index `k + d` down to `k`. -/
def iterPath (g : String → String) (s₀ : String) (k : Nat) : Nat → List String
  | 0 => [g^[k] s₀]
  | d + 1 => g^[k + d + 1] s₀ :: iterPath g s₀ k d

theorem iterPath_head (g : String → String) (s₀ : String) (k : Nat) :
    ∀ d, (iterPath g s₀ k d).head? = some (g^[k + d] s₀)
  | 0 => rfl
  | d + 1 => rfl

theorem iterPath_concat (g : String → String) (s₀ : String) (k : Nat) :
    ∀ d, iterPath g s₀ k (d + 1) = iterPath g s₀ (k + 1) d ++ [g^[k] s₀] := by
  intro d
  induction d with
  | zero => rfl
  | succ d ih =>
    show g^[k + (d + 1) + 1] s₀ :: iterPath g s₀ k (d + 1)
        = (g^[k + 1 + d + 1] s₀ :: iterPath g s₀ (k + 1) d) ++ [g^[k] s₀]
    rw [List.cons_append, ih]
    have he : k + (d + 1) + 1 = k + 1 + d + 1 := by omega
    rw [he]

theorem iterPath_chain (E : List Edge) (g : String → String) (s₀ : String)
    (hedge : ∀ m, hasEdge E (g^[m + 1] s₀) (g^[m] s₀)) (k : Nat) :
    ∀ d, List.Chain' (hasEdge E) (iterPath g s₀ k d) := by
  intro d
  induction d with
  | zero => exact List.chain'_singleton _
  | succ d ih =>
    show List.Chain' (hasEdge E) (g^[k + d + 1] s₀ :: iterPath g s₀ k d)
    refine List.chain'_cons'.mpr ⟨?_, ih⟩
    intro y hy
    rw [iterPath_head] at hy
    have hye : g^[k + d] s₀ = y := by simpa using hy
    rw [← hye]
    exact hedge (k + d)

/-- Two coinciding iterates of the predecessor function give a cycle. -/
theorem hasCycle_of_repeat (E : List Edge) (g : String → String) (s₀ : String)
    (hedge : ∀ m, hasEdge E (g^[m + 1] s₀) (g^[m] s₀))
    (i j : Nat) (hlt : i < j) (heq : g^[i] s₀ = g^[j] s₀) : hasCycle E := by
  obtain ⟨d, hd⟩ : ∃ d, j = i + d + 1 := ⟨j - i - 1, by omega⟩
  subst hd
  have hpath := iterPath_concat g s₀ i d
  have hchain := iterPath_chain E g s₀ hedge i (d + 1)
  cases hL : iterPath g s₀ (i + 1) d with
  | nil =>
    have hh := iterPath_head g s₀ (i + 1) d
    rw [hL] at hh
    cases hh
  | cons h0 T =>
    have hhead := iterPath_head g s₀ (i + 1) d
    rw [hL] at hhead
    have hh0 : h0 = g^[i + 1 + d] s₀ := by simpa using hhead
    rw [hpath, hL, List.cons_append] at hchain
    refine ⟨h0, T, ?_⟩
    have hlasteq : g^[i] s₀ = h0 := by
      have hidx : i + 1 + d = i + d + 1 := by omega
      rw [hh0, hidx]
      exact heq
    rw [hlasteq] at hchain
    exact hchain

/-- A finite nonempty node set in which every node has a predecessor inside
the set yields a directed cycle (pigeonhole on iterated predecessors). -/
theorem hasCycle_of_succ (E : List Edge) (S : List String) (hne : S ≠ [])
    (hsucc : ∀ s ∈ S, ∃ t ∈ S, hasEdge E t s) : hasCycle E := by
  classical
  have hg : ∀ s, ∃ t, s ∈ S → (t ∈ S ∧ hasEdge E t s) := by
    intro s
    by_cases hs : s ∈ S
    · obtain ⟨t, ht, he⟩ := hsucc s hs
      exact ⟨t, fun _ => ⟨ht, he⟩⟩
    · exact ⟨s, fun h => absurd h hs⟩
  choose g hgS using hg
  obtain ⟨s₀, hs₀⟩ := List.exists_mem_of_ne_nil S hne
  have hiter : ∀ m, g^[m] s₀ ∈ S := by
    intro m
    induction m with
    | zero => exact hs₀
    | succ m ihm =>
      rw [Function.iterate_succ_apply']
      exact (hgS _ ihm).1
  have hedge : ∀ m, hasEdge E (g^[m + 1] s₀) (g^[m] s₀) := by
    intro m
    rw [Function.iterate_succ_apply']
    exact (hgS _ (hiter m)).2
  have hcard : S.toFinset.card < (Finset.range (S.length + 1)).card := by
    have := List.toFinset_card_le S
    rw [Finset.card_range]
    omega
  have hmaps : ∀ m ∈ Finset.range (S.length + 1), g^[m] s₀ ∈ S.toFinset :=
    fun m _ => List.mem_toFinset.mpr (hiter m)
  obtain ⟨i, _, j, _, hij, heq⟩ :=
    Finset.exists_ne_map_eq_of_card_lt_of_maps_to hcard hmaps
  -- arrange i < j
  rcases Nat.lt_or_ge i j with hlt | hge
  · exact hasCycle_of_repeat E g s₀ hedge i j hlt heq
  · have hlt : j < i := Nat.lt_of_le_of_ne hge (fun h => hij h.symm)
    exact hasCycle_of_repeat E g s₀ hedge j i hlt heq.symm

instance hasEdge_dec (E : List Edge) : DecidableRel (hasEdge E) := fun a b =>
  decidable_of_iff (∃ e ∈ E, e.source = a ∧ e.target = b) Iff.rfl

/-- C5.  For a validated acyclic graph, `_topological_sort` succeeds and the
order it returns is a permutation of all node ids in which every edge's
source appears strictly before its target. -/
theorem topo_order_is_topological (ids : List String) (E : List Edge)
    (hN : ids.Nodup) (hE : ∀ e ∈ E, e.source ∈ ids ∧ e.target ∈ ids)
    (hacyc : ¬ hasCycle E) :
    topologicalSort ids E = .ok (kahnPartial ids E)
    ∧ List.Perm (kahnPartial ids E) ids
    ∧ ∀ e ∈ E, [e.source, e.target].Sublist (kahnPartial ids E) := by
  obtain ⟨hnd, hsub, hord, hcomp, _⟩ := kahnPartial_spec ids E hN hE
  have hfull : ∀ n ∈ ids, n ∈ kahnPartial ids E := by
    by_contra hmiss
    push_neg at hmiss
    obtain ⟨n₀, hn₀, hn₀m⟩ := hmiss
    have hn₀S : n₀ ∈ ids.filter (fun n => n ∉ kahnPartial ids E) := by
      rw [List.mem_filter]
      simp [hn₀, hn₀m]
    have hSne : ids.filter (fun n => n ∉ kahnPartial ids E) ≠ [] := by
      intro h
      rw [h] at hn₀S
      exact absurd hn₀S (List.not_mem_nil n₀)
    have hsucc : ∀ s ∈ ids.filter (fun n => n ∉ kahnPartial ids E),
        ∃ t ∈ ids.filter (fun n => n ∉ kahnPartial ids E), hasEdge E t s := by
      intro s hs
      rw [List.mem_filter] at hs
      obtain ⟨hsid, hsm⟩ := hs
      have hsm' : s ∉ kahnPartial ids E := by simpa using hsm
      obtain ⟨e, he, ht, hsrc⟩ := hcomp s hsid hsm'
      refine ⟨e.source, ?_, e, he, rfl, ht⟩
      rw [List.mem_filter]
      simp [(hE e he).1, hsrc]
    exact hacyc (hasCycle_of_succ E _ hSne hsucc)
  have hperm : List.Perm (kahnPartial ids E) ids := by
    rw [List.perm_ext_iff_of_nodup hnd hN]
    exact fun a => ⟨fun h => hsub a h, fun h => hfull a h⟩
  have hlen : (kahnPartial ids E).length = ids.length := hperm.length_eq
  rw [topologicalSort_eq ids E (fun e he => (hE e he).2), if_pos hlen]
  exact ⟨rfl, hperm, fun e he => hord e he (hfull e.target (hE e he).2)⟩

/-- A diamond-shaped acyclic workflow used as a concrete witness. -/
def diamondIds : List String := ["s", "a", "b", "e"]

/-- Edges of the diamond: `s -> a`, `s -> b`, `a -> e`, `b -> e`. -/
def diamondEdges : List Edge :=
  [ { id := "e1", source := "s", target := "a" },
    { id := "e2", source := "s", target := "b" },
    { id := "e3", source := "a", target := "e" },
    { id := "e4", source := "b", target := "e" } ]

theorem topo_order_is_topological_witness :
    topologicalSort diamondIds diamondEdges = .ok ["s", "a", "b", "e"] := by
  have h := (topo_order_is_topological diamondIds diamondEdges (by decide) (by decide)
    (not_hasCycle_of_linear diamondEdges ["s", "a", "b", "e"] (by decide))).1
  rw [h]
  rfl

/-- C6.  At every step, the node `_topological_sort` emits is the
lexicographically least (`≤` on `String`) among all currently ready
(zero-remaining-in-degree, unemitted) nodes, and — the sort being a pure
function of the graph — two compilations of the same graph return identical
orders. -/
theorem topo_sort_pops_min_ready (ids : List String) (E : List Edge)
    (hN : ids.Nodup) (hE : ∀ e ∈ E, e.source ∈ ids ∧ e.target ∈ ids) :
    (∀ i, ∀ h : i < (kahnPartial ids E).length,
      (kahnPartial ids E).get ⟨i, h⟩ ∈ readyNodes ids E ((kahnPartial ids E).take i)
      ∧ ∀ m ∈ readyNodes ids E ((kahnPartial ids E).take i),
          (kahnPartial ids E).get ⟨i, h⟩ ≤ m)
    ∧ ∀ l₁ l₂, topologicalSort ids E = .ok l₁ → topologicalSort ids E = .ok l₂ →
        l₁ = l₂ := by
  obtain ⟨_, _, _, _, hmin⟩ := kahnPartial_spec ids E hN hE
  refine ⟨hmin, ?_⟩
  intro l₁ l₂ h₁ h₂
  rw [h₁] at h₂
  cases h₂
  rfl

theorem topo_sort_pops_min_ready_witness :
    (kahnPartial diamondIds diamondEdges).get ⟨1, by decide⟩ ≤ "b" :=
  ((topo_sort_pops_min_ready diamondIds diamondEdges (by decide) (by decide)).1
    1 (by decide)).2 "b" (by decide)

/-- C7.  For a graph with a directed cycle, `_topological_sort` raises the
cycle `ValueError`, and the remaining-node list it reports is exactly the
set of node ids not emitted by the partial topological order (in node
order), which is nonempty. -/
theorem cycle_detected_with_remaining (ids : List String) (E : List Edge)
    (hN : ids.Nodup) (hE : ∀ e ∈ E, e.source ∈ ids ∧ e.target ∈ ids)
    (hcyc : hasCycle E) :
    topologicalSort ids E
      = .error (.cycle (ids.filter (fun n => n ∉ kahnPartial ids E)))
    ∧ ids.filter (fun n => n ∉ kahnPartial ids E) ≠ [] := by
  obtain ⟨hnd, hsub, hord, _, _⟩ := kahnPartial_spec ids E hN hE
  obtain ⟨a, p, hch⟩ := hcyc
  have hmiss : ∃ n ∈ ids, n ∉ kahnPartial ids E := by
    by_contra hall
    push_neg at hall
    have hmemids : ∀ w ∈ a :: (p ++ [a]), w ∈ ids := by
      intro w hw
      have hw' : w ∈ (a :: (p ++ [a])).tail := by
        rcases List.mem_cons.mp hw with rfl | h
        · exact List.mem_append.mpr (Or.inr (by simp))
        · exact h
      obtain ⟨v, e, he, _, ht⟩ := chain'_tail_pred E _ hch w hw'
      rw [← ht]
      exact (hE e he).2
    have hmemout : ∀ w ∈ a :: (p ++ [a]), w ∈ kahnPartial ids E :=
      fun w hw => hall w (hmemids w hw)
    have hch' : List.Chain'
        (fun x y => hasEdge E x y ∧ x ∈ kahnPartial ids E ∧ y ∈ kahnPartial ids E)
        (a :: (p ++ [a])) :=
      chain'_strengthen (fun x y hxy hx hy => ⟨hxy, hx, hy⟩) _ hch hmemout
    have hmono : ∀ x y,
        (hasEdge E x y ∧ x ∈ kahnPartial ids E ∧ y ∈ kahnPartial ids E) →
        (kahnPartial ids E).indexOf x < (kahnPartial ids E).indexOf y := by
      rintro x y ⟨⟨e, he, hs, ht⟩, _, hy⟩
      have htout : e.target ∈ kahnPartial ids E := by rw [ht]; exact hy
      have hidx := indexOf_lt_of_pair_sublist hnd (hord e he htout)
      rw [hs, ht] at hidx
      exact hidx
    have hlast : (a :: (p ++ [a])).getLast? = some a := by
      rw [show a :: (p ++ [a]) = (a :: p) ++ [a] from rfl]
      exact List.getLast?_concat _
    exact lt_irrefl _
      (chain'_head_lt_getLast _ (fun s => (kahnPartial ids E).indexOf s) hmono
        (p ++ [a]) a a hch' hlast (by simp))
  obtain ⟨n₀, hn₀, hn₀m⟩ := hmiss
  have hlen : (kahnPartial ids E).length ≠ ids.length := by
    intro hlen
    exact hn₀m (nodup_subset_full hnd hN hsub (le_of_eq hlen.symm) n₀ hn₀)
  rw [topologicalSort_eq ids E (fun e he => (hE e he).2), if_neg hlen]
  refine ⟨rfl, ?_⟩
  intro hnil
  have hmem : n₀ ∈ ids.filter (fun n => n ∉ kahnPartial ids E) := by
    rw [List.mem_filter]
    simp [hn₀, hn₀m]
  rw [hnil] at hmem
  exact absurd hmem (List.not_mem_nil n₀)

/-- A workflow whose `x`, `y` nodes form a directed cycle. -/
def cycleIds : List String := ["s", "x", "y", "e"]

/-- Edges `s -> x`, `x -> y`, `y -> x` (the cycle), `x -> e`. -/
def cycleEdges : List Edge :=
  [ { id := "c1", source := "s", target := "x" },
    { id := "c2", source := "x", target := "y" },
    { id := "c3", source := "y", target := "x" },
    { id := "c4", source := "x", target := "e" } ]

theorem cycle_detected_with_remaining_witness :
    topologicalSort cycleIds cycleEdges = .error (.cycle ["x", "y", "e"]) := by
  have hch : List.Chain' (hasEdge cycleEdges) ("x" :: (["y"] ++ ["x"])) := by
    refine List.chain'_cons.mpr
      ⟨⟨{ id := "c2", source := "x", target := "y" }, by decide, rfl, rfl⟩, ?_⟩
    refine List.chain'_cons.mpr
      ⟨⟨{ id := "c3", source := "y", target := "x" }, by decide, rfl, rfl⟩, ?_⟩
    exact List.chain'_singleton _
  have h := (cycle_detected_with_remaining cycleIds cycleEdges (by decide) (by decide)
    ⟨"x", ["y"], hch⟩).1
  rw [h]
  rfl
